import Mathlib

/-!
Verification of the pyquil reference simulator (`pyquil/reference_simulator.py`).

The development shallowly embeds the two engines of the module:

* `ReferenceWavefunctionSimulator` : a pure state vector of length `2 ^ n`,
  with gate application, projective measurement, and sampling;
* `ReferenceDensitySimulator` : a density matrix, with initial-state override,
  Kraus-channel noise, and sampling.

Machine complex numbers (`np.complex128`) are modelled by `CQ`, complex numbers
with exact rational components.  NumPy helpers that the module calls but that
are outside the embedded file (`lifted_gate_matrix`, `all_bitstrings`, the
`P0`/`P1` projectors, the `KRAUS_OPS` registry, `np.linalg.eigvals`,
`np.sqrt`) are modelled from the specification; each such definition carries a
doc comment starting with `Modelled from the spec:`.
-/

attribute [local semireducible] Rat.add Rat.mul Rat.sub Rat.inv Rat.ofScientific

/-- Complex numbers with rational real and imaginary part, the exact model of
the `np.complex128` scalars used by the simulator. -/
@[ext]
structure CQ where
  re : ℚ
  im : ℚ
  deriving DecidableEq

namespace CQ

instance : Zero CQ := ⟨⟨0, 0⟩⟩

instance : One CQ := ⟨⟨1, 0⟩⟩

instance : Add CQ := ⟨fun z w => ⟨z.re + w.re, z.im + w.im⟩⟩

instance : Neg CQ := ⟨fun z => ⟨-z.re, -z.im⟩⟩

instance : Mul CQ := ⟨fun z w => ⟨z.re * w.re - z.im * w.im, z.re * w.im + z.im * w.re⟩⟩

@[simp] theorem zero_re : (0 : CQ).re = 0 := rfl

@[simp] theorem zero_im : (0 : CQ).im = 0 := rfl

@[simp] theorem one_re : (1 : CQ).re = 1 := rfl

@[simp] theorem one_im : (1 : CQ).im = 0 := rfl

@[simp] theorem add_re (z w : CQ) : (z + w).re = z.re + w.re := rfl

@[simp] theorem add_im (z w : CQ) : (z + w).im = z.im + w.im := rfl

@[simp] theorem neg_re (z : CQ) : (-z).re = -z.re := rfl

@[simp] theorem neg_im (z : CQ) : (-z).im = -z.im := rfl

@[simp] theorem mul_re (z w : CQ) : (z * w).re = z.re * w.re - z.im * w.im := rfl

@[simp] theorem mul_im (z w : CQ) : (z * w).im = z.re * w.im + z.im * w.re := rfl

instance commRing : CommRing CQ := by
  refine
  { add := (· + ·)
    zero := (0 : CQ)
    neg := Neg.neg
    mul := (· * ·)
    one := (1 : CQ)
    nsmul := nsmulRec
    zsmul := zsmulRec
    add_assoc := ?_
    zero_add := ?_
    add_zero := ?_
    add_comm := ?_
    neg_add_cancel := ?_
    mul_assoc := ?_
    one_mul := ?_
    mul_one := ?_
    left_distrib := ?_
    right_distrib := ?_
    zero_mul := ?_
    mul_zero := ?_
    mul_comm := ?_ } <;>
  intros <;> ext <;> simp <;> ring

/-- Complex conjugation, the model of `np.conj` on scalars. -/
def conj (z : CQ) : CQ := ⟨z.re, -z.im⟩

@[simp] theorem conj_re (z : CQ) : z.conj.re = z.re := rfl

@[simp] theorem conj_im (z : CQ) : z.conj.im = -z.im := rfl

instance : StarRing CQ where
  star := conj
  star_involutive := by intro z; ext <;> simp
  star_mul := by intro z w; ext <;> simp <;> ring
  star_add := by intro z w; ext <;> simp <;> ring

@[simp] theorem star_re (z : CQ) : (star z).re = z.re := rfl

@[simp] theorem star_im (z : CQ) : (star z).im = -z.im := rfl

/-- Embedding of a rational (a real float value) as a complex scalar. -/
def ofQ (q : ℚ) : CQ := ⟨q, 0⟩

@[simp] theorem ofQ_re (q : ℚ) : (ofQ q).re = q := rfl

@[simp] theorem ofQ_im (q : ℚ) : (ofQ q).im = 0 := rfl

theorem ofQ_injective : Function.Injective ofQ := by
  intro a b h
  simpa [ofQ, CQ.ext_iff] using h

/-- Squared magnitude of a complex scalar; `abs z = sqrt (normSq z)`. -/
def normSq (z : CQ) : ℚ := z.re * z.re + z.im * z.im

@[simp] theorem normSq_zero : normSq 0 = 0 := by simp [normSq]

theorem star_mul_self (z : CQ) : star z * z = ofQ (normSq z) := by
  ext <;> simp [normSq] <;> ring

theorem normSq_nonneg (z : CQ) : 0 ≤ normSq z := by
  have h1 : 0 ≤ z.re * z.re := mul_self_nonneg _
  have h2 : 0 ≤ z.im * z.im := mul_self_nonneg _
  simpa [normSq] using add_nonneg h1 h2

/-- Division of complex scalars, the model of complex float division
(with the Lean convention that division by zero returns zero). -/
instance : Div CQ :=
  ⟨fun z w =>
    ⟨(z.re * w.re + z.im * w.im) / normSq w, (z.im * w.re - z.re * w.im) / normSq w⟩⟩

/-- Lexicographic strict order on complex scalars: the order NumPy uses when a
complex value is compared with a real one. -/
def ltLex (z w : CQ) : Prop := z.re < w.re ∨ (z.re = w.re ∧ z.im < w.im)

instance (z w : CQ) : Decidable (ltLex z w) :=
  inferInstanceAs (Decidable (_ < _ ∨ (_ = _ ∧ _ < _)))

end CQ

/-! ## NumPy tolerance predicates

`np.isclose(a, b)` holds when `abs (a - b) <= atol + rtol * abs b` with the
default tolerances `rtol = 1e-05` and `atol = 1e-08`.  For complex scalars the
magnitude is `sqrt (normSq z)`; the predicate below is the square-root-free
equivalent over exact rationals (the equivalence with the square-root form is
proved in `npIsCloseB_iff_sqrt`). -/

/-- Default relative tolerance of `np.isclose` / `np.allclose`. -/
def RTOL : ℚ := 1 / 100000

/-- Default absolute tolerance of `np.isclose` / `np.allclose`. -/
def ATOL : ℚ := 1 / 100000000

/-- Model of `np.isclose(a, b)` for complex scalars with default tolerances:
`abs (a - b) <= ATOL + RTOL * abs b`, written without square roots. -/
def npIsCloseB (a b : CQ) : Prop :=
  CQ.normSq (a - b) - ATOL ^ 2 - RTOL ^ 2 * CQ.normSq b ≤ 0 ∨
    (CQ.normSq (a - b) - ATOL ^ 2 - RTOL ^ 2 * CQ.normSq b) ^ 2 ≤
      4 * ATOL ^ 2 * RTOL ^ 2 * CQ.normSq b

instance (a b : CQ) : Decidable (npIsCloseB a b) :=
  inferInstanceAs (Decidable (_ ≤ _ ∨ _ ≤ _))

/-- Squaring characterization of `sqrt D <= c + d * sqrt B` for nonnegative
data and positive tolerances. -/
theorem sqrt_le_add_mul_sqrt_iff (D B c d : ℝ) (hD : 0 ≤ D) (hB : 0 ≤ B)
    (hc : 0 < c) (hd : 0 < d) :
    Real.sqrt D ≤ c + d * Real.sqrt B ↔
      (D - c ^ 2 - d ^ 2 * B ≤ 0 ∨
        (D - c ^ 2 - d ^ 2 * B) ^ 2 ≤ 4 * c ^ 2 * d ^ 2 * B) := by
  have hsB : 0 ≤ Real.sqrt B := Real.sqrt_nonneg _
  have hR : 0 ≤ c + d * Real.sqrt B := by positivity
  have hBsq : Real.sqrt B * Real.sqrt B = B := Real.mul_self_sqrt hB
  have hpos : 0 ≤ 2 * c * d * Real.sqrt B := by positivity
  have hsq2 : (2 * c * d * Real.sqrt B) ^ 2 = 4 * c ^ 2 * d ^ 2 * B := by
    have h2 : Real.sqrt B ^ 2 = B := Real.sq_sqrt hB
    calc (2 * c * d * Real.sqrt B) ^ 2 = 4 * c ^ 2 * d ^ 2 * Real.sqrt B ^ 2 := by ring
    _ = 4 * c ^ 2 * d ^ 2 * B := by rw [h2]
  have hsq : Real.sqrt D ≤ c + d * Real.sqrt B ↔ D ≤ (c + d * Real.sqrt B) ^ 2 :=
    Real.sqrt_le_left hR
  have key : D ≤ (c + d * Real.sqrt B) ^ 2 ↔
      D - c ^ 2 - d ^ 2 * B ≤ 2 * c * d * Real.sqrt B := by
    constructor
    · intro h; nlinarith [hBsq]
    · intro h; nlinarith [hBsq]
  rw [hsq, key]
  constructor
  · intro h
    rcases le_or_lt (D - c ^ 2 - d ^ 2 * B) 0 with h0 | h0
    · exact Or.inl h0
    · right
      have hLL := mul_self_le_mul_self (le_of_lt h0) h
      nlinarith [hLL, hsq2]
  · rintro (h0 | h0)
    · exact le_trans h0 hpos
    · by_contra hcon
      push_neg at hcon
      have hlt := mul_self_lt_mul_self hpos hcon
      nlinarith [hlt, hsq2]

/-- The square-root-free predicate `npIsCloseB` agrees with the literal NumPy
formula `abs (a - b) <= ATOL + RTOL * abs b` over the reals. -/
theorem npIsCloseB_iff_sqrt (a b : CQ) :
    npIsCloseB a b ↔
      Real.sqrt ((CQ.normSq (a - b) : ℚ) : ℝ) ≤
        ((ATOL : ℚ) : ℝ) + ((RTOL : ℚ) : ℝ) * Real.sqrt ((CQ.normSq b : ℚ) : ℝ) := by
  have hD : (0 : ℝ) ≤ ((CQ.normSq (a - b) : ℚ) : ℝ) := by exact_mod_cast CQ.normSq_nonneg _
  have hB : (0 : ℝ) ≤ ((CQ.normSq b : ℚ) : ℝ) := by exact_mod_cast CQ.normSq_nonneg _
  have hc : (0 : ℝ) < ((ATOL : ℚ) : ℝ) := by norm_num [ATOL]
  have hd : (0 : ℝ) < ((RTOL : ℚ) : ℝ) := by norm_num [RTOL]
  rw [sqrt_le_add_mul_sqrt_iff _ _ _ _ hD hB hc hd]
  unfold npIsCloseB
  constructor
  · rintro (h | h)
    · left; exact_mod_cast h
    · right; exact_mod_cast h
  · rintro (h | h)
    · left; exact_mod_cast h
    · right; exact_mod_cast h

/-- Model of `np.isclose(a, b)` for real scalars with default tolerances. -/
def npIsCloseR (a b : ℚ) : Prop := |a - b| ≤ ATOL + RTOL * |b|

instance (a b : ℚ) : Decidable (npIsCloseR a b) := by unfold npIsCloseR; infer_instance

/-! ## Python exceptions -/

/-- The Python exceptions the module raises. -/
inductive PyErr where
  | valueError (msg : String)
  | notImplementedError (msg : String)
  | keyError (key : String)
  deriving DecidableEq

/-- The exception class alone, forgetting the message. -/
inductive PyErrKind where
  | valueError
  | notImplementedError
  | keyError
  deriving DecidableEq

/-- Class of an exception. -/
def PyErr.kind : PyErr → PyErrKind
  | .valueError _ => .valueError
  | .notImplementedError _ => .notImplementedError
  | .keyError _ => .keyError

/-- Error message of the stochastic-operation guard, shared by every method
that consults the random state. -/
def stochMsg : String :=
  "You have tried to perform a stochastic operation without setting the " ++
    "random state of the simulator. Might I suggest using a PyQVM object?"

/-! ## Untyped NumPy matrices

`set_initial_state` accepts an arbitrary `np.ndarray`, so the density engine
is modelled over matrices whose shape is part of the value, exactly like a
NumPy array.  Entries outside the shape are irrelevant junk. -/

/-- A complex NumPy array of shape `(rows, cols)`. -/
@[ext]
structure NPMat where
  rows : ℕ
  cols : ℕ
  entry : ℕ → ℕ → CQ

/-- Model of `np.trace`: sum of the main diagonal (length `min rows cols`). -/
def NPMat.trace (M : NPMat) : CQ :=
  ((List.range (min M.rows M.cols)).map fun i => M.entry i i).sum

/-- Model of `np.allclose(M, np.conjugate(M.transpose()))` elementwise over
the shape of `M` (the code only reaches this check when `M` is square). -/
def NPMat.hermClose (M : NPMat) : Bool :=
  (List.range M.rows).all fun i =>
    (List.range M.cols).all fun j =>
      decide (npIsCloseB (M.entry i j) (star (M.entry j i)))

/-- Matrix product, model of `np.ndarray.dot` for 2-D arrays. -/
def NPMat.matmul (A B : NPMat) : NPMat :=
  ⟨A.rows, B.cols, fun i j => ((List.range A.cols).map fun k => A.entry i k * B.entry k j).sum⟩

/-- Conjugate transpose, model of `np.conj(A.T)`. -/
def NPMat.dagger (A : NPMat) : NPMat :=
  ⟨A.cols, A.rows, fun i j => star (A.entry j i)⟩

/-- Elementwise sum, model of `+` on same-shaped arrays. -/
def NPMat.add (A B : NPMat) : NPMat :=
  ⟨A.rows, A.cols, fun i j => A.entry i j + B.entry i j⟩

/-- Model of `np.zeros_like`. -/
def NPMat.zerosLike (A : NPMat) : NPMat :=
  ⟨A.rows, A.cols, fun _ _ => 0⟩

/-! ## The state validity checker -/

/-- Check of `all([False if val < -atol else True for val in evals])` on the
eigenvalue list.  The eigenvalues themselves come from `np.linalg.eigvals`,
which is outside the embedded module, so the list is a parameter. -/
def nonNegEigs (eigs : List ℚ) : Bool :=
  eigs.all fun v => !decide (v < -ATOL)

/-- Embedding of `_is_valid_quantum_state` (reference_simulator.py lines
28-48), with the default tolerances inlined (no caller overrides them).
The function raises on the first violated invariant and returns the
conjunction of the three checks otherwise.  `eigs` stands for
`np.linalg.eigvals(state_matrix)`. -/
def isValidQuantumState (M : NPMat) (eigs : List ℚ) : Except PyErr Bool :=
  let hermitian := M.hermClose
  if hermitian = false then
    .error (.valueError "The state matrix is not Hermitian.")
  else
    let traceOne := decide (npIsCloseB M.trace 1)
    if traceOne = false then
      .error (.valueError "The state matrix is not trace one.")
    else
      let negEigs := nonNegEigs eigs
      if negEigs = false then
        .error (.valueError "The state matrix has negative Eigenvalues of the order -1e-08.")
      else
        .ok (hermitian && traceOne && negEigs)

/-! ## The density engine state and set_initial_state -/

/-- State of a `ReferenceDensitySimulator`: qubit count, random-state flag
(`rs = false` models `rs is None`), the configured initial density and the
live density matrix. -/
structure DSim where
  n_qubits : ℕ
  rs : Bool
  initial_density : NPMat
  density : NPMat

/-- The all-zeros projector density matrix of `__init__` and of
`set_initial_state(None)`: zeros with a one in the upper-left corner. -/
def zeroDensity (n : ℕ) : NPMat :=
  ⟨2 ^ n, 2 ^ n, fun i j => if i = 0 ∧ j = 0 then 1 else 0⟩

/-- Embedding of `ReferenceDensitySimulator.set_initial_state`
(reference_simulator.py lines 193-224).  The first component is the raised
exception, if any; the second is the object state when the call returns or
the exception escapes (the method mutates nothing before raising).
`int(np.log2(rows))` is `Nat.log 2 rows`.  `eigs` stands for
`np.linalg.eigvals(state_matrix)` inside the validity check. -/
def setInitialState (sim : DSim) (stateMatrix : Option NPMat) (eigs : List ℚ) :
    Option PyErr × DSim :=
  match stateMatrix with
  | none => (none, { sim with initial_density := zeroDensity sim.n_qubits })
  | some M =>
    if M.rows ≠ M.cols then
      (some (.valueError "The state matrix is not square."), sim)
    else if sim.n_qubits ≠ Nat.log 2 M.rows then
      (some (.valueError
        "The state matrix is not defined on the same numbers of qubits as the QVM."), sim)
    else
      match isValidQuantumState M eigs with
      | .error e => (some e, sim)
      | .ok true => (none, { sim with initial_density := M })
      | .ok false =>
        (some (.valueError
          ("The state matrix is not valid. It must be Hermitian, trace one, " ++
            "and have non-negative eigenvalues.")), sim)

/-! ## Density engine: noise channels and sampling -/

/-- Bit `q` of the basis index `i`, as an index into a one-qubit matrix. -/
def bitF (i q : ℕ) : Fin 2 := if i.testBit q then 1 else 0

/-- Modelled from the spec: `lifted_gate_matrix(matrix, [q], n_qubits)` for a
single-qubit operator, as used by the density engine for Kraus operators.
Section 4.2: the operator is tensored with identities on the untouched qubits
and embedded honoring the convention that qubit 0 is the least significant
bit of the basis index.  Entry `(i, j)` of the lifted operator is
`k (bit q of i) (bit q of j)` when `i` and `j` agree on every other bit, and
zero otherwise. -/
def liftNP (k : Matrix (Fin 2) (Fin 2) CQ) (q n : ℕ) : NPMat :=
  ⟨2 ^ n, 2 ^ n, fun i j =>
    if i < 2 ^ n ∧ j < 2 ^ n ∧ ∀ p < n, p ≠ q → i.testBit p = j.testBit p then
      k (bitF i q) (bitF j q)
    else 0⟩

/-- The body of the `for kraus_op in kraus_ops` loop of `do_post_gate_noise`:
starting from `np.zeros_like(density)`, accumulate
`lifted.dot(density).dot(np.conj(lifted.T))` over the Kraus operators of the
channel, acting on qubit `q`. -/
def applySingleQubitKraus (kraus : List (Matrix (Fin 2) (Fin 2) CQ)) (q n : ℕ)
    (ρ : NPMat) : NPMat :=
  kraus.foldl
    (fun acc k => acc.add (((liftNP k q n).matmul ρ).matmul (liftNP k q n).dagger))
    (NPMat.zerosLike ρ)

/-- The sum `Σ_k K_k ρ K_k†` over the lifted Kraus operators, written as the
specification words it: entrywise, the sum over the channel of the
per-operator conjugation `K ρ K†`, with each `K` lifted on qubit `q` alone. -/
def krausChannelSum (kraus : List (Matrix (Fin 2) (Fin 2) CQ)) (q n : ℕ)
    (ρ : NPMat) : NPMat :=
  ⟨ρ.rows, ρ.cols, fun i j =>
    (kraus.map fun k =>
      (((liftNP k q n).matmul ρ).matmul (liftNP k q n).dagger).entry i j).sum⟩

/-- Embedding of `ReferenceDensitySimulator.do_post_gate_noise`
(reference_simulator.py lines 315-328).  `registry` models the `KRAUS_OPS`
dict of `pyquil.gate_matrices` (modelled from the spec: a named, parametrized
family producing a finite set of Kraus operators, supplied by an external
registry); an unknown name raises `KeyError` at the subscript, before the
probability test.  The boolean in the result records whether the
`warnings.warn` diagnostic was emitted. -/
def doPostGateNoise (sim : DSim)
    (registry : String → Option (ℚ → List (Matrix (Fin 2) (Fin 2) CQ)))
    (noiseType : String) (noiseProb : ℚ) (qubits : List ℕ) :
    Except PyErr (DSim × Bool) :=
  match registry noiseType with
  | none => .error (.keyError noiseType)
  | some f =>
    let krausOps := f noiseProb
    if npIsCloseR noiseProb 0 then
      .ok (sim, true)
    else
      .ok ({ sim with
              density := qubits.foldl
                (fun ρ q => applySingleQubitKraus krausOps q sim.n_qubits ρ)
                sim.density },
           false)

/-- Machine epsilon of IEEE double precision, `np.finfo(float).eps`. -/
def machineEps : ℚ := 1 / 2 ^ 52

/-- The absolute imaginary-part tolerance of
`np.real_if_close(..., tol=1e8)`: `machine epsilon * 1e8`. -/
def realIfCloseTol : ℚ := machineEps * 100000000

/-- The probability vector `sample_bitstrings` reads off the density matrix:
`np.real_if_close(np.diagonal(density), tol=1e8)`, then negative entries are
clamped to zero, then the vector is renormalized by its sum. -/
def densityProbs (sim : DSim) : List CQ :=
  let diag := (List.range (min sim.density.rows sim.density.cols)).map
    fun i => sim.density.entry i i
  let realified :=
    if diag.all fun z => decide (|z.im| < realIfCloseTol) then
      diag.map fun z => ⟨z.re, 0⟩
    else diag
  let clamped := realified.map fun z => if CQ.ltLex z 0 then 0 else z
  clamped.map fun z => z / clamped.sum

/-- Modelled from the spec: row `i` of `all_bitstrings(n)`, the `i`-th
bit-pattern in lexicographic order; position 0 of the pattern holds the bit
of the last qubit (qubit 0 is the rightmost, least significant bit). -/
def allBitstringsRow (n i : ℕ) : List Bool :=
  (List.range n).map fun t => i.testBit (n - 1 - t)

/-- Embedding of `ReferenceDensitySimulator.sample_bitstrings`
(reference_simulator.py lines 226-253) with the default `tol_factor = 1e8`.
`choice` models `self.rs.choice`: it consumes the probability vector and
yields the drawn basis-state indices.  The rows are flipped so qubit 0 is the
first output column.  The returned simulator is the object state after the
call. -/
def densitySampleBitstrings (sim : DSim) (choice : List CQ → List ℕ) :
    Except PyErr (DSim × List (List Bool)) :=
  if sim.rs = false then .error (.valueError stochMsg)
  else
    let probabilities := densityProbs sim
    let inds := choice probabilities
    .ok (sim, inds.map fun i => (allBitstringsRow sim.n_qubits i).reverse)

/-- Embedding of `ReferenceDensitySimulator.expectation`
(reference_simulator.py lines 302-303): unconditionally raises
`NotImplementedError`. -/
def densityExpectation {α : Type} (sim : DSim) (operator : α) : Except PyErr CQ :=
  .error (.notImplementedError "To implement")

/-! ## The wavefunction engine

The pure-state engine stores a vector indexed by `Fin (2 ^ n)` (its length is
fixed for the lifetime of the object), so it is embedded with typed
matrices.  The operator lifter is shared by gate application, measurement
projectors and (conceptually) Kraus operators. -/

open Kronecker Matrix

/-- The equivalence splitting a basis index of `2 ^ n` bit positions into the
bits at the positions listed in `qs` (in list order) and the assignment of
the remaining bits.  Qubit `q` is bit `q` of the index. -/
def splitEquiv {n : ℕ} (qs : List (Fin n)) (hnd : qs.Nodup) :
    Fin (2 ^ n) ≃ Fin (2 ^ qs.length) × ({x : Fin n // x ∉ qs} → Fin 2) :=
  finFunctionFinEquiv.symm.trans
    ((Equiv.arrowCongr (Equiv.sumCompl (· ∈ qs)) (Equiv.refl (Fin 2))).symm.trans
      ((Equiv.sumArrowEquivProdArrow _ _ (Fin 2)).trans
        (Equiv.prodCongr
          ((Equiv.arrowCongr hnd.getEquiv (Equiv.refl (Fin 2))).symm.trans
            finFunctionFinEquiv)
          (Equiv.refl _))))

/-- Modelled from the spec: `lifted_gate_matrix(matrix, qubit_inds, n_qubits)`
(section 4.2).  The operator on the listed qubits is tensored with the
identity on the untouched qubits, and the basis indices are permuted (via
`splitEquiv`) so the acted-upon qubits land at their declared positions,
honoring the convention that qubit 0 is the least significant bit.  The
qubit indices must be distinct; the matrix dimension is `2 ^ qs.length` by
the lifter contract. -/
def liftMat {n : ℕ} (qs : List (Fin n)) (hnd : qs.Nodup)
    (m : Matrix (Fin (2 ^ qs.length)) (Fin (2 ^ qs.length)) CQ) :
    Matrix (Fin (2 ^ n)) (Fin (2 ^ n)) CQ :=
  (m ⊗ₖ (1 : Matrix ({x : Fin n // x ∉ qs} → Fin 2) ({x : Fin n // x ∉ qs} → Fin 2) CQ)).submatrix
    (splitEquiv qs hnd) (splitEquiv qs hnd)

/-- Modelled from the spec: the `P0` projector of `pyquil.gate_matrices`,
the projector onto the single-qubit zero subspace, `[[1, 0], [0, 0]]`. -/
def P0 : Matrix (Fin 2) (Fin 2) CQ := fun i j => if i = 0 ∧ j = 0 then 1 else 0

/-- Modelled from the spec: the `P1` projector of `pyquil.gate_matrices`,
the complementary projector `[[0, 0], [0, 1]]`. -/
def P1 : Matrix (Fin 2) (Fin 2) CQ := fun i j => if i = 1 ∧ j = 1 then 1 else 0

/-- A single-qubit operator lifted over qubit `q`, as used by
`do_measurement`. -/
def measureOp {n : ℕ} (k : Matrix (Fin 2) (Fin 2) CQ) (q : Fin n) :
    Matrix (Fin (2 ^ n)) (Fin (2 ^ n)) CQ :=
  liftMat [q] (List.nodup_singleton q) k

/-- The scalar product `np.conj(v).T @ w` of two state vectors. -/
def dotC {N : Type} [Fintype N] (v w : N → CQ) : CQ := ∑ i, star (v i) * w i

/-- Sum of squared magnitudes of the amplitudes: the square of the Euclidean
norm of the state vector. -/
def sumNormSq {N : Type} [Fintype N] (v : N → CQ) : ℚ := ∑ i, CQ.normSq (v i)

/-- State of a `ReferenceWavefunctionSimulator`: the random-state flag and
the amplitude vector (`__init__`: zeros with amplitude one at index 0). -/
structure WFSim (n : ℕ) where
  rs : Bool
  wf : Fin (2 ^ n) → CQ

/-- The freshly constructed wavefunction simulator. -/
def wfInit (n : ℕ) (rs : Bool) : WFSim n :=
  ⟨rs, fun i => if i = 0 then 1 else 0⟩

/-- Embedding of `ReferenceWavefunctionSimulator.do_gate_matrix`
(reference_simulator.py lines 103-113): lift the matrix over its qubits and
left-multiply the state vector.  `do_gate` (lines 93-101) resolves a named
gate to its matrix and target qubits (via `lifted_gate`, outside the embedded
module; per the spec it lifts the gate matrix over the target qubits) and
then acts identically, so both are embedded by this one transition. -/
def wfDoGateMatrix {n : ℕ} (sim : WFSim n) (qubits : List (Fin n))
    (hnd : qubits.Nodup)
    (m : Matrix (Fin (2 ^ qubits.length)) (Fin (2 ^ qubits.length)) CQ) :
    WFSim n :=
  { sim with wf := (liftMat qubits hnd m).mulVec sim.wf }

/-- One gate application: target qubits (distinct, by the lifter contract)
and the matrix supplied to `do_gate` / `do_gate_matrix`. -/
structure GateOp (n : ℕ) where
  qs : List (Fin n)
  nodup : qs.Nodup
  m : Matrix (Fin (2 ^ qs.length)) (Fin (2 ^ qs.length)) CQ

/-- A sequence of `do_gate` / `do_gate_matrix` calls, applied in call order. -/
def applyOps {n : ℕ} (ops : List (GateOp n)) (sim : WFSim n) : WFSim n :=
  ops.foldl (fun s op => wfDoGateMatrix s op.qs op.nodup op.m) sim

/-- Embedding of `ReferenceWavefunctionSimulator.do_measurement`
(reference_simulator.py lines 115-141).  `sqrtC` models `np.sqrt` on complex
scalars; `u` is the value drawn by `self.rs.uniform()`; the comparison of the
real draw with the complex `prob_zero` is the NumPy lexicographic order.
The `np.eye(2 ** n) / np.sqrt(...)` factor is the scalar `1 / sqrt(...)`
times the identity. -/
def wfDoMeasurement {n : ℕ} (sim : WFSim n) (q : Fin n) (sqrtC : CQ → CQ)
    (u : ℚ) : Except PyErr (ℕ × WFSim n) :=
  if sim.rs = false then .error (.valueError stochMsg)
  else
    let measure0 := measureOp P0 q
    let projPsi := measure0.mulVec sim.wf
    let probZero := dotC projPsi projPsi
    if CQ.ltLex (CQ.ofQ u) probZero then
      let unitary := measure0 * (((1 : CQ) / sqrtC probZero) •
        (1 : Matrix (Fin (2 ^ n)) (Fin (2 ^ n)) CQ))
      .ok (0, { sim with wf := unitary.mulVec sim.wf })
    else
      let measure1 := measureOp P1 q
      let unitary := measure1 * (((1 : CQ) / sqrtC (1 - probZero)) •
        (1 : Matrix (Fin (2 ^ n)) (Fin (2 ^ n)) CQ))
      .ok (1, { sim with wf := unitary.mulVec sim.wf })

/-- The probability vector `np.abs(wf) ** 2` handed to `rs.choice` by the
wavefunction `sample_bitstrings`. -/
def wfProbs {n : ℕ} (sim : WFSim n) : List ℚ :=
  (List.finRange (2 ^ n)).map fun i => CQ.normSq (sim.wf i)

/-- Embedding of `ReferenceWavefunctionSimulator.sample_bitstrings`
(reference_simulator.py lines 74-91).  `choice` models `self.rs.choice`,
consuming the probability vector and yielding drawn basis-state indices; the
rows are flipped so qubit 0 is the first output column.  The returned
simulator is the object state after the call. -/
def wfSampleBitstrings {n : ℕ} (sim : WFSim n) (choice : List ℚ → List ℕ) :
    Except PyErr (WFSim n × List (List Bool)) :=
  if sim.rs = false then .error (.valueError stochMsg)
  else
    let probabilities := wfProbs sim
    let inds := choice probabilities
    .ok (sim, inds.map fun i => (allBitstringsRow n i).reverse)

/-- Embedding of `ReferenceWavefunctionSimulator.do_post_gate_noise`
(reference_simulator.py lines 165-167): unconditionally raises
`NotImplementedError`. -/
def wfDoPostGateNoise {n : ℕ} (sim : WFSim n) (noiseType : String)
    (noiseProb : ℚ) (qubits : List ℕ) : Except PyErr Unit :=
  .error (.notImplementedError "The reference wavefunction simulator cannot handle noise")

/-- The exception class of the outcome of a call, if it raised. -/
def errKind {β : Type} : Except PyErr β → Option PyErrKind
  | .error e => some e.kind
  | .ok _ => none

/-! ## Concrete inputs used by witnesses and counterexamples -/

/-- The 3 x 3 matrix `diag(1, 0, 0)`: a valid quantum state of the wrong
dimension for a 1-qubit engine. -/
def diag3 : NPMat := ⟨3, 3, fun i j => if i = 0 ∧ j = 0 then 1 else 0⟩

/-- A fresh 1-qubit density simulator with a random state attached. -/
def dsim1 : DSim := ⟨1, true, zeroDensity 1, zeroDensity 1⟩

/-- The non-Hermitian matrix `[[1, 0], [1, 0]]` from the specification. -/
def nonHermM : NPMat := ⟨2, 2, fun _ j => if j = 0 then 1 else 0⟩

/-- A 2 x 3 (non-square) matrix of zeros. -/
def rectM : NPMat := ⟨2, 3, fun _ _ => 0⟩

instance {ε α : Type} [DecidableEq ε] [DecidableEq α] : DecidableEq (Except ε α) := fun a b =>
  match a, b with
  | .error e, .error f => decidable_of_iff (e = f) (by simp)
  | .error _, .ok _ => isFalse (by simp)
  | .ok _, .error _ => isFalse (by simp)
  | .ok x, .ok y => decidable_of_iff (x = y) (by simp)

/-- A one-element Kraus family (the identity channel), used as a concrete
recognized channel by witnesses. -/
def krausW : ℚ → List (Matrix (Fin 2) (Fin 2) CQ) := fun _ => [1]

/-- A registry recognizing only the name `bit_flip`. -/
def registryW : String → Option (ℚ → List (Matrix (Fin 2) (Fin 2) CQ)) :=
  fun s => if s = "bit_flip" then some krausW else none

instance {a b : ℕ} : DecidableEq (Matrix (Fin a) (Fin b) CQ) := fun A B =>
  decidable_of_iff _ Matrix.ext_iff

/-- The Pauli X gate matrix `[[0, 1], [1, 0]]`, a concrete rational unitary
used by witnesses. -/
def XgateM : Matrix (Fin 2) (Fin 2) CQ := fun i j => if i ≠ j then 1 else 0

/-- The single gate application of X to qubit 0 of a 1-qubit engine. -/
def opX : GateOp 1 := ⟨[0], List.nodup_singleton 0, XgateM⟩

/-- C1: the claim says every square matrix whose dimension is not exactly
`2 ^ n` is rejected with `DimensionMismatch` before the validity check runs.
The code instead compares `n_qubits` with `int(np.log2(rows))`, which
truncates: with one qubit the square 3 x 3 matrix `diag(1, 0, 0)` passes the
dimension check (`int(np.log2(3)) = 1`), the validity checker runs and
accepts it, and the matrix is recorded as the initial state, even though
`3 ≠ 2 ^ 1`.  This theorem evaluates the embedding at that failing input. -/
theorem setInitialState_accepts_3x3_on_one_qubit :
    (3 : ℕ) ≠ 2 ^ 1 ∧
      setInitialState dsim1 (some diag3) [1, 0, 0] =
        (none, { dsim1 with initial_density := diag3 }) := by
  have hlog : Nat.log 2 3 = 1 := Nat.log_eq_of_pow_le_of_lt_pow (by norm_num) (by norm_num)
  have hvalid : isValidQuantumState diag3 [1, 0, 0] = .ok true := by decide
  refine ⟨by decide, ?_⟩
  simp only [setInitialState]
  rw [if_neg (by decide)]
  rw [if_neg (by simp [dsim1, diag3, hlog])]
  simp only [hvalid]

/-- C4: `set_initial_state` with a matrix argument never touches the live
density matrix (nor the qubit count or random state); when it raises, the
whole object state is left unmodified; when it succeeds, the only change is
that the matrix is recorded as the configured initial state. -/
theorem setInitialState_frame (sim : DSim) (M : NPMat) (eigs : List ℚ) :
    (setInitialState sim (some M) eigs).2.density = sim.density ∧
    (setInitialState sim (some M) eigs).2.n_qubits = sim.n_qubits ∧
    (setInitialState sim (some M) eigs).2.rs = sim.rs ∧
    (∀ e : PyErr, (setInitialState sim (some M) eigs).1 = some e →
      (setInitialState sim (some M) eigs).2 = sim) ∧
    ((setInitialState sim (some M) eigs).1 = none →
      (setInitialState sim (some M) eigs).2 = { sim with initial_density := M }) := by
  simp only [setInitialState]
  split_ifs with h1 h2
  · simp
  · simp
  · rcases hv : isValidQuantumState M eigs with e | b
    · simp [hv]
    · cases b
      · simp [hv]
      · simp [hv]

/-- Witness for C4 at a concrete rejected call: a 2 x 3 matrix is rejected
as not square and the object state is exactly the input state. -/
theorem setInitialState_frame_witness :
    (setInitialState dsim1 (some rectM) []).1 =
        some (.valueError "The state matrix is not square.") ∧
      (setInitialState dsim1 (some rectM) []).2 = dsim1 :=
  ⟨by decide,
    (setInitialState_frame dsim1 rectM []).2.2.2.1
      (.valueError "The state matrix is not square.") (by decide)⟩

/-- C5: for a correctly sized candidate (square, of dimension `2 ^ n`),
`set_initial_state` runs the validity checker and fails with the
invariant-specific `ValueError` of the first violated check, in the order
Hermitian, trace one, nonnegative eigenvalues; it records the matrix exactly
when all three checks pass.  The generic `not valid` branch of
`set_initial_state` is unreachable because the checker raises instead of
returning `False`. -/
theorem setInitialState_validity_order (sim : DSim) (M : NPMat) (eigs : List ℚ)
    (hsq : M.rows = M.cols) (hpow : M.rows = 2 ^ sim.n_qubits) :
    (M.hermClose = false →
      setInitialState sim (some M) eigs =
        (some (.valueError "The state matrix is not Hermitian."), sim)) ∧
    (M.hermClose = true → ¬ npIsCloseB M.trace 1 →
      setInitialState sim (some M) eigs =
        (some (.valueError "The state matrix is not trace one."), sim)) ∧
    (M.hermClose = true → npIsCloseB M.trace 1 → nonNegEigs eigs = false →
      setInitialState sim (some M) eigs =
        (some (.valueError
          "The state matrix has negative Eigenvalues of the order -1e-08."), sim)) ∧
    (M.hermClose = true → npIsCloseB M.trace 1 → nonNegEigs eigs = true →
      setInitialState sim (some M) eigs = (none, { sim with initial_density := M })) := by
  have hdim : ¬ sim.n_qubits ≠ Nat.log 2 M.rows := by
    rw [hpow, Nat.log_pow (by norm_num)]
    simp
  simp only [setInitialState]
  rw [if_neg (by simp [hsq]), if_neg hdim]
  refine ⟨fun h1 => ?_, fun h1 h2 => ?_, fun h1 h2 h3 => ?_, fun h1 h2 h3 => ?_⟩
  · simp [isValidQuantumState, h1]
  · simp [isValidQuantumState, h1, decide_eq_false h2]
  · simp [isValidQuantumState, h1, decide_eq_true h2, h3]
  · simp [isValidQuantumState, h1, decide_eq_true h2, h3]

/-- Witness for C5 at the specification example: the non-Hermitian matrix
`[[1, 0], [1, 0]]` on a 1-qubit engine is rejected with the NotHermitian
`ValueError` and the object state is unchanged. -/
theorem setInitialState_validity_order_witness :
    nonHermM.hermClose = false ∧
      setInitialState dsim1 (some nonHermM) [1, 0] =
        (some (.valueError "The state matrix is not Hermitian."), dsim1) :=
  ⟨by decide,
    (setInitialState_validity_order dsim1 nonHermM [1, 0] rfl (by decide)).1 (by decide)⟩

/-- Accumulating `acc.add (g x)` over a list leaves the shape of `acc`
unchanged. -/
theorem foldl_add_rows {α : Type} (g : α → NPMat) (l : List α) (acc : NPMat) :
    (l.foldl (fun a x => a.add (g x)) acc).rows = acc.rows := by
  induction l generalizing acc with
  | nil => rfl
  | cons k ks ih => simpa [NPMat.add] using ih (acc.add (g k))

/-- Accumulating `acc.add (g x)` over a list leaves the column count of
`acc` unchanged. -/
theorem foldl_add_cols {α : Type} (g : α → NPMat) (l : List α) (acc : NPMat) :
    (l.foldl (fun a x => a.add (g x)) acc).cols = acc.cols := by
  induction l generalizing acc with
  | nil => rfl
  | cons k ks ih => simpa [NPMat.add] using ih (acc.add (g k))

/-- Entrywise, accumulating `acc.add (g x)` over a list computes the entry of
`acc` plus the sum of the entries of `g x`. -/
theorem foldl_add_entry {α : Type} (g : α → NPMat) (l : List α) (acc : NPMat)
    (i j : ℕ) :
    (l.foldl (fun a x => a.add (g x)) acc).entry i j =
      acc.entry i j + (l.map fun x => (g x).entry i j).sum := by
  induction l generalizing acc with
  | nil => simp
  | cons k ks ih =>
    simp only [List.foldl_cons, List.map_cons, List.sum_cons]
    rw [ih (acc.add (g k))]
    simp [NPMat.add, add_assoc]

/-- The Kraus loop of `do_post_gate_noise` (zeros accumulator, one `+=` per
Kraus operator) computes exactly the channel sum `Σ_k K_k ρ K_k†`. -/
theorem applySingleQubitKraus_eq_sum (kraus : List (Matrix (Fin 2) (Fin 2) CQ))
    (q n : ℕ) (ρ : NPMat) :
    applySingleQubitKraus kraus q n ρ = krausChannelSum kraus q n ρ := by
  unfold applySingleQubitKraus krausChannelSum
  refine NPMat.ext ?_ ?_ ?_
  · simpa [NPMat.zerosLike] using foldl_add_rows _ kraus (NPMat.zerosLike ρ)
  · simpa [NPMat.zerosLike] using foldl_add_cols _ kraus (NPMat.zerosLike ρ)
  · funext i j
    simpa [NPMat.zerosLike] using foldl_add_entry _ kraus (NPMat.zerosLike ρ) i j

/-- C6: with a recognized channel name and a probability not numerically
indistinguishable from zero, `do_post_gate_noise` applies an independent
single-qubit channel to each listed qubit in list order: the new density is
the left fold over the qubit list of `ρ ↦ Σ_k K_k ρ K_k†`, every Kraus
operator lifted on that qubit alone; in particular for a two-qubit list the
result is the sequential composition of the two single-qubit channels, not a
joint two-qubit channel. -/
theorem doPostGateNoise_sequential_single_qubit (sim : DSim)
    (registry : String → Option (ℚ → List (Matrix (Fin 2) (Fin 2) CQ)))
    (noiseType : String) (p : ℚ) (qubits : List ℕ)
    (f : ℚ → List (Matrix (Fin 2) (Fin 2) CQ))
    (hreg : registry noiseType = some f) (hp : ¬ npIsCloseR p 0) :
    doPostGateNoise sim registry noiseType p qubits =
      .ok ({ sim with
              density := qubits.foldl
                (fun ρ q => krausChannelSum (f p) q sim.n_qubits ρ)
                sim.density },
           false) ∧
    (∀ q1 q2 : ℕ, qubits = [q1, q2] →
      doPostGateNoise sim registry noiseType p qubits =
        .ok ({ sim with
                density := krausChannelSum (f p) q2 sim.n_qubits
                  (krausChannelSum (f p) q1 sim.n_qubits sim.density) },
             false)) := by
  have hmain : doPostGateNoise sim registry noiseType p qubits =
      .ok ({ sim with
              density := qubits.foldl
                (fun ρ q => krausChannelSum (f p) q sim.n_qubits ρ)
                sim.density },
           false) := by
    simp only [doPostGateNoise, hreg]
    rw [if_neg hp]
    simp only [applySingleQubitKraus_eq_sum]
  refine ⟨hmain, fun q1 q2 hq => ?_⟩
  rw [hmain, hq]
  simp

/-- Witness for C6: the identity channel under the recognized name
`bit_flip` with probability one half on qubit 0 of a 1-qubit engine. -/
theorem doPostGateNoise_sequential_single_qubit_witness :
    registryW "bit_flip" = some krausW ∧ ¬ npIsCloseR (1 / 2) 0 ∧
      doPostGateNoise dsim1 registryW "bit_flip" (1 / 2) [0] =
        .ok ({ dsim1 with
                density := ([0] : List ℕ).foldl
                  (fun ρ q => krausChannelSum (krausW (1 / 2)) q dsim1.n_qubits ρ)
                  dsim1.density },
             false) :=
  ⟨rfl, by decide,
    (doPostGateNoise_sequential_single_qubit dsim1 registryW "bit_flip" (1 / 2) [0]
      krausW rfl (by decide)).1⟩

/-- C8: with a recognized channel name and a probability numerically
indistinguishable from zero, `do_post_gate_noise` is a no-op: it raises
nothing, leaves the density matrix (and the whole object state) unchanged,
and emits the non-fatal warning diagnostic. -/
theorem doPostGateNoise_zero_prob_noop (sim : DSim)
    (registry : String → Option (ℚ → List (Matrix (Fin 2) (Fin 2) CQ)))
    (noiseType : String) (p : ℚ) (qubits : List ℕ)
    (f : ℚ → List (Matrix (Fin 2) (Fin 2) CQ))
    (hreg : registry noiseType = some f) (hp : npIsCloseR p 0) :
    doPostGateNoise sim registry noiseType p qubits = .ok (sim, true) := by
  simp only [doPostGateNoise, hreg]
  rw [if_pos hp]

/-- Witness for C8: probability zero on the recognized name `bit_flip`. -/
theorem doPostGateNoise_zero_prob_noop_witness :
    registryW "bit_flip" = some krausW ∧ npIsCloseR 0 0 ∧
      doPostGateNoise dsim1 registryW "bit_flip" 0 [0] = .ok (dsim1, true) :=
  ⟨rfl, by decide,
    doPostGateNoise_zero_prob_noop dsim1 registryW "bit_flip" 0 [0] krausW rfl (by decide)⟩

/-- C10: the channel name is resolved in the registry before the
zero-probability test, so an unrecognized name raises `KeyError` for every
probability, including probabilities numerically indistinguishable from
zero. -/
theorem doPostGateNoise_unknown_channel_raises (sim : DSim)
    (registry : String → Option (ℚ → List (Matrix (Fin 2) (Fin 2) CQ)))
    (noiseType : String) (hreg : registry noiseType = none) :
    ∀ (p : ℚ) (qubits : List ℕ),
      doPostGateNoise sim registry noiseType p qubits = .error (.keyError noiseType) := by
  intro p qubits
  simp only [doPostGateNoise, hreg]

/-- Witness for C10: an unknown name with probability zero still raises
`KeyError`, even though `np.isclose(0, 0)` holds. -/
theorem doPostGateNoise_unknown_channel_raises_witness :
    registryW "unknown" = none ∧ npIsCloseR 0 0 ∧
      doPostGateNoise dsim1 registryW "unknown" 0 [0] = .error (.keyError "unknown") :=
  ⟨rfl, by decide,
    doPostGateNoise_unknown_channel_raises dsim1 registryW "unknown" rfl 0 [0]⟩

/-! ## Algebra of the operator lifter -/

@[simp] theorem CQ.normSq_one : CQ.normSq 1 = 1 := by simp [CQ.normSq]

theorem CQ.ofQ_sum {N : Type} (s : Finset N) (f : N → ℚ) :
    CQ.ofQ (∑ i ∈ s, f i) = ∑ i ∈ s, CQ.ofQ (f i) := by
  induction s using Finset.cons_induction with
  | empty => ext <;> simp
  | cons a s ha ih =>
    rw [Finset.sum_cons, Finset.sum_cons, ← ih]
    ext <;> simp

/-- Conjugate transposition distributes over the Kronecker product with an
identity factor. -/
theorem kronecker_one_conjTranspose {κ : ℕ} {τ : Type} [Fintype τ] [DecidableEq τ]
    (m : Matrix (Fin κ) (Fin κ) CQ) :
    (m ⊗ₖ (1 : Matrix τ τ CQ))ᴴ = mᴴ ⊗ₖ (1 : Matrix τ τ CQ) := by
  apply Matrix.ext
  rintro ⟨i1, i2⟩ ⟨j1, j2⟩
  by_cases h : j2 = i2
  · simp [Matrix.conjTranspose_apply, Matrix.kroneckerMap_apply, Matrix.one_apply, h]
  · simp [Matrix.conjTranspose_apply, Matrix.kroneckerMap_apply, Matrix.one_apply, h,
      Ne.symm h]

/-- The lifter is multiplicative: composing two lifted operators on the same
qubit list is the lift of the composition. -/
theorem liftMat_mul {n : ℕ} (qs : List (Fin n)) (hnd : qs.Nodup)
    (a b : Matrix (Fin (2 ^ qs.length)) (Fin (2 ^ qs.length)) CQ) :
    liftMat qs hnd a * liftMat qs hnd b = liftMat qs hnd (a * b) := by
  unfold liftMat
  rw [Matrix.submatrix_mul_equiv, ← Matrix.mul_kronecker_mul, Matrix.one_mul]

/-- The lift of the identity is the identity. -/
theorem liftMat_one {n : ℕ} (qs : List (Fin n)) (hnd : qs.Nodup) :
    liftMat qs hnd 1 = 1 := by
  unfold liftMat
  rw [Matrix.one_kronecker_one, Matrix.submatrix_one_equiv]

/-- The lifter commutes with conjugate transposition. -/
theorem liftMat_conjTranspose {n : ℕ} (qs : List (Fin n)) (hnd : qs.Nodup)
    (m : Matrix (Fin (2 ^ qs.length)) (Fin (2 ^ qs.length)) CQ) :
    (liftMat qs hnd m)ᴴ = liftMat qs hnd mᴴ := by
  unfold liftMat
  rw [Matrix.conjTranspose_submatrix, kronecker_one_conjTranspose]

/-- The lift of a unitary matrix is unitary. -/
theorem liftMat_unitary {n : ℕ} (qs : List (Fin n)) (hnd : qs.Nodup)
    (m : Matrix (Fin (2 ^ qs.length)) (Fin (2 ^ qs.length)) CQ)
    (hm : mᴴ * m = 1) :
    (liftMat qs hnd m)ᴴ * liftMat qs hnd m = 1 := by
  rw [liftMat_conjTranspose, liftMat_mul, hm, liftMat_one]

theorem dotC_eq_dotProduct {N : Type} [Fintype N] (v w : N → CQ) :
    dotC v w = Matrix.dotProduct (star v) w := rfl

/-- Conjugating both arguments of the scalar product by a matrix inserts the
Gram matrix. -/
theorem dotC_mulVec_mulVec {N : Type} [Fintype N] (A : Matrix N N CQ)
    (v w : N → CQ) :
    dotC (A.mulVec v) (A.mulVec w) = dotC v ((Aᴴ * A).mulVec w) := by
  rw [dotC_eq_dotProduct, dotC_eq_dotProduct, Matrix.star_mulVec,
    Matrix.dotProduct_mulVec, Matrix.vecMul_vecMul, ← Matrix.dotProduct_mulVec]

/-- The scalar product of a vector with itself is the squared norm. -/
theorem dotC_self_eq {N : Type} [Fintype N] (v : N → CQ) :
    dotC v v = CQ.ofQ (sumNormSq v) := by
  unfold dotC sumNormSq
  rw [CQ.ofQ_sum]
  exact Finset.sum_congr rfl fun i _ => CQ.star_mul_self (v i)

/-- Multiplication by a matrix with `Uᴴ * U = 1` preserves the squared norm. -/
theorem sumNormSq_mulVec_of_unitary {N : Type} [Fintype N] [DecidableEq N] (U : Matrix N N CQ)
    (hU : Uᴴ * U = 1) (v : N → CQ) :
    sumNormSq (U.mulVec v) = sumNormSq v := by
  have h := dotC_mulVec_mulVec U v v
  rw [hU, Matrix.one_mulVec, dotC_self_eq, dotC_self_eq] at h
  exact CQ.ofQ_injective h

/-- C2: with a random source present, `do_measurement` computes
`prob_zero` equal to `⟨ψ|P0|ψ⟩` with `P0` the lifted projector onto the
measured qubit's zero subspace (the code computes `⟨P0 ψ|P0 ψ⟩`, equal by
the projector identity); when the uniform draw falls below `prob_zero` it
replaces the state with `(P0 / sqrt prob_zero) ψ` and returns 0, and
otherwise replaces the state with `(P1 / sqrt (1 - prob_zero)) ψ` and
returns 1. -/
theorem wfDoMeasurement_born_rule {n : ℕ} (sim : WFSim n) (q : Fin n)
    (sqrtC : CQ → CQ) (u : ℚ) (hrs : sim.rs = true) :
    dotC ((measureOp P0 q).mulVec sim.wf) ((measureOp P0 q).mulVec sim.wf) =
      dotC sim.wf ((measureOp P0 q).mulVec sim.wf) ∧
    (CQ.ltLex (CQ.ofQ u) (dotC sim.wf ((measureOp P0 q).mulVec sim.wf)) →
      wfDoMeasurement sim q sqrtC u =
        .ok (0, { sim with
          wf := ((1 : CQ) / sqrtC (dotC sim.wf ((measureOp P0 q).mulVec sim.wf))) •
            ((measureOp P0 q).mulVec sim.wf) })) ∧
    (¬ CQ.ltLex (CQ.ofQ u) (dotC sim.wf ((measureOp P0 q).mulVec sim.wf)) →
      wfDoMeasurement sim q sqrtC u =
        .ok (1, { sim with
          wf := ((1 : CQ) / sqrtC (1 - dotC sim.wf ((measureOp P0 q).mulVec sim.wf))) •
            ((measureOp P1 q).mulVec sim.wf) })) := by
  have hproj : (measureOp P0 q)ᴴ * measureOp P0 q = measureOp P0 q := by
    unfold measureOp
    rw [liftMat_conjTranspose, show P0ᴴ = P0 by decide, liftMat_mul,
      show P0 * P0 = P0 by decide]
  have h1 : dotC ((measureOp P0 q).mulVec sim.wf) ((measureOp P0 q).mulVec sim.wf) =
      dotC sim.wf ((measureOp P0 q).mulVec sim.wf) := by
    rw [dotC_mulVec_mulVec, hproj]
  have hsc : ∀ (A : Matrix (Fin (2 ^ n)) (Fin (2 ^ n)) CQ) (c : CQ) (v : Fin (2 ^ n) → CQ),
      (A * (c • (1 : Matrix (Fin (2 ^ n)) (Fin (2 ^ n)) CQ))).mulVec v = c • (A.mulVec v) := by
    intro A c v
    rw [Matrix.mul_smul, Matrix.mul_one, Matrix.smul_mulVec_assoc]
  refine ⟨h1, fun hlt => ?_, fun hge => ?_⟩
  · unfold wfDoMeasurement
    rw [hrs]
    rw [if_neg (by simp)]
    simp only [h1]
    rw [if_pos hlt, hsc]
  · unfold wfDoMeasurement
    rw [hrs]
    rw [if_neg (by simp)]
    simp only [h1]
    rw [if_neg hge, hsc]

/-- Witness for C2 on a fresh 1-qubit engine: `prob_zero` is 1, the draw one
half falls below it, the result is outcome 0 with the projected state. -/
theorem wfDoMeasurement_born_rule_witness :
    (wfInit 1 true).rs = true ∧
      CQ.ltLex (CQ.ofQ (1 / 2))
        (dotC (wfInit 1 true).wf ((measureOp P0 0).mulVec (wfInit 1 true).wf)) ∧
      wfDoMeasurement (wfInit 1 true) 0 (fun _ => 1) (1 / 2) =
        .ok (0, { wfInit 1 true with
          wf := ((1 : CQ) /
              (fun _ => (1 : CQ))
                (dotC (wfInit 1 true).wf ((measureOp P0 0).mulVec (wfInit 1 true).wf))) •
            ((measureOp P0 0).mulVec (wfInit 1 true).wf) }) :=
  ⟨rfl, by decide,
    (wfDoMeasurement_born_rule (wfInit 1 true) 0 (fun _ => 1) (1 / 2) rfl).2.1 (by decide)⟩

/-- C3 counterexample: the claim says the error kinds of the wavefunction
`do_post_gate_noise` failure and the density `expectation` failure are
distinct; in the code both raise `NotImplementedError`, so at any concrete
input the two exception kinds are equal. -/
theorem wfNoise_densityExpectation_kinds_equal :
    errKind (wfDoPostGateNoise (wfInit 1 true) "bit_flip" (1 / 2) [0]) =
        some .notImplementedError ∧
      errKind (densityExpectation dsim1 (0 : ℕ)) = some .notImplementedError ∧
      errKind (wfDoPostGateNoise (wfInit 1 true) "bit_flip" (1 / 2) [0]) =
        errKind (densityExpectation dsim1 (0 : ℕ)) :=
  ⟨rfl, rfl, rfl⟩

/-- C3 amended: for every input, `do_post_gate_noise` on the wavefunction
engine and `expectation` on the density engine both fail by raising
`NotImplementedError` — the same exception kind — and the two failures are
distinguished only by their messages. -/
theorem wfNoise_and_densityExpectation_not_implemented {n : ℕ} (sim : WFSim n)
    (dsim : DSim) (noiseType : String) (p : ℚ) (qubits : List ℕ)
    {α : Type} (operator : α) :
    wfDoPostGateNoise sim noiseType p qubits =
      .error (.notImplementedError
        "The reference wavefunction simulator cannot handle noise") ∧
    densityExpectation dsim operator =
      .error (.notImplementedError "To implement") ∧
    ("The reference wavefunction simulator cannot handle noise" : String) ≠
      "To implement" :=
  ⟨rfl, rfl, by decide⟩

/-- C7: starting from the all-zeros basis state (norm exactly 1), any
sequence of `do_gate` / `do_gate_matrix` calls whose supplied matrices are
unitary keeps the squared norm of the state vector exactly 1; hence the
Euclidean norm (the nonnegative `r` with `r * r` equal to the squared norm)
stays within `1e-9` of 1 after every call. -/
theorem wf_unitary_sequence_norm_one (n : ℕ) (ops : List (GateOp n))
    (hops : ∀ op ∈ ops, op.mᴴ * op.m = 1) :
    sumNormSq ((applyOps ops (wfInit n true)).wf) = 1 ∧
      ∀ r : ℚ, 0 ≤ r → r * r = sumNormSq ((applyOps ops (wfInit n true)).wf) →
        |r - 1| ≤ 1 / 1000000000 := by
  have hstep : ∀ (l : List (GateOp n)) (sim : WFSim n),
      (∀ op ∈ l, op.mᴴ * op.m = 1) → sumNormSq sim.wf = 1 →
      sumNormSq ((applyOps l sim).wf) = 1 := by
    intro l
    induction l with
    | nil => intro sim _ h; exact h
    | cons op rest ih =>
      intro sim hau h1
      have hop := hau op (List.mem_cons_self _ _)
      have hrest : ∀ o ∈ rest, o.mᴴ * o.m = 1 := fun o ho =>
        hau o (List.mem_cons_of_mem _ ho)
      show sumNormSq ((applyOps rest (wfDoGateMatrix sim op.qs op.nodup op.m)).wf) = 1
      refine ih _ hrest ?_
      show sumNormSq ((liftMat op.qs op.nodup op.m).mulVec sim.wf) = 1
      rw [sumNormSq_mulVec_of_unitary _ (liftMat_unitary _ _ _ hop), h1]
  have hinit : sumNormSq ((wfInit n true).wf) = 1 := by
    simp [wfInit, sumNormSq, apply_ite CQ.normSq, Finset.sum_ite_eq']
  have hmain := hstep ops (wfInit n true) hops hinit
  refine ⟨hmain, fun r hr hrr => ?_⟩
  rw [hmain] at hrr
  have hone : r = 1 := by nlinarith
  rw [hone]
  norm_num

/-- Witness for C7: applying the unitary X gate once to a fresh 1-qubit
engine keeps the squared norm at 1. -/
theorem wf_unitary_sequence_norm_one_witness :
    (∀ op ∈ [opX], op.mᴴ * op.m = 1) ∧
      sumNormSq ((applyOps [opX] (wfInit 1 true)).wf) = 1 := by
  have hops : ∀ op ∈ [opX], op.mᴴ * op.m = 1 := by
    intro op hop
    rw [List.mem_singleton] at hop
    subst hop
    decide
  exact ⟨hops, (wf_unitary_sequence_norm_one 1 [opX] hops).1⟩

/-- C9: with a random source present, `sample_bitstrings` on both engines
raises nothing and returns the object state unchanged; the samples are drawn
from the probability vector computed from that unchanged state, so a second
consecutive call reads exactly the same distribution. -/
theorem sampleBitstrings_read_only {n : ℕ} (sim : WFSim n) (dsim : DSim)
    (wfChoice : List ℚ → List ℕ) (dChoice : List CQ → List ℕ)
    (hrs : sim.rs = true) (hdrs : dsim.rs = true) :
    wfSampleBitstrings sim wfChoice =
      .ok (sim, (wfChoice (wfProbs sim)).map fun i => (allBitstringsRow n i).reverse) ∧
    densitySampleBitstrings dsim dChoice =
      .ok (dsim, (dChoice (densityProbs dsim)).map fun i =>
        (allBitstringsRow dsim.n_qubits i).reverse) ∧
    (∀ (sim2 : WFSim n) (out : List (List Bool)),
      wfSampleBitstrings sim wfChoice = .ok (sim2, out) →
        sim2.wf = sim.wf ∧ wfProbs sim2 = wfProbs sim) ∧
    (∀ (dsim2 : DSim) (out : List (List Bool)),
      densitySampleBitstrings dsim dChoice = .ok (dsim2, out) →
        dsim2.density = dsim.density ∧ densityProbs dsim2 = densityProbs dsim) := by
  have h1 : wfSampleBitstrings sim wfChoice =
      .ok (sim, (wfChoice (wfProbs sim)).map fun i => (allBitstringsRow n i).reverse) := by
    unfold wfSampleBitstrings
    rw [hrs]
    rw [if_neg (by simp)]
  have h2 : densitySampleBitstrings dsim dChoice =
      .ok (dsim, (dChoice (densityProbs dsim)).map fun i =>
        (allBitstringsRow dsim.n_qubits i).reverse) := by
    unfold densitySampleBitstrings
    rw [hdrs]
    rw [if_neg (by simp)]
  refine ⟨h1, h2, fun sim2 out h => ?_, fun dsim2 out h => ?_⟩
  · rw [h1] at h
    simp only [Except.ok.injEq, Prod.mk.injEq] at h
    rw [← h.1]
    exact ⟨rfl, rfl⟩
  · rw [h2] at h
    simp only [Except.ok.injEq, Prod.mk.injEq] at h
    rw [← h.1]
    exact ⟨rfl, rfl⟩

/-- Witness for C9 on fresh 1-qubit engines with a source drawing index 0:
both calls succeed, return the input state itself, and yield the bitstring
row `[0]`. -/
theorem sampleBitstrings_read_only_witness :
    (wfInit 1 true).rs = true ∧ dsim1.rs = true ∧
      wfSampleBitstrings (wfInit 1 true) (fun _ => [0]) =
        .ok (wfInit 1 true, [[false]]) ∧
      densitySampleBitstrings dsim1 (fun _ => [0]) = .ok (dsim1, [[false]]) := by
  refine ⟨rfl, rfl, ?_, ?_⟩
  · rw [(sampleBitstrings_read_only (wfInit 1 true) dsim1
      (fun _ => [0]) (fun _ => [0]) rfl rfl).1]
    rfl
  · rw [(sampleBitstrings_read_only (wfInit 1 true) dsim1
      (fun _ => [0]) (fun _ => [0]) rfl rfl).2.1]
    rfl
